import Mathlib

/-!
Shallow embedding of the separate-chaining hash table (`class HashTable`)
from the repository's C++ snippet, together with theorems checking the
specification's claims about it.

Modelling conventions:
* a bucket (`ListNode` chain) is a `List Int` in node order;
* the bucket store `table_` (a `std::vector<ListNode*>`) is a
  `List (List Int)`; its length is the capacity;
* `size_` (a C++ `int`, only ever incremented here) is a `Nat`;
* a `std::vector` access `table[index]` is modelled by a guarded lookup
  that yields `none` when `index` is out of bounds (in C++ this is
  undefined behaviour), so fallible operations return `Option`;
* the `while (head)` loop of `find` is modelled with explicit fuel,
  because the source loop body never advances `head`: `none` at every
  fuel models non-termination;
* `get_balance_factor`'s `double` division is modelled as exact rational
  division; for the integer magnitudes reachable here (both operands far
  below 2^53) the `double` comparison with `0.5` agrees with the exact
  rational comparison, and hence with the integer comparison
  `2 * size_ > K` used in the executable `insert` (see
  `balance_gt_half_iff`).
-/

/-- State of the C++ `HashTable` object: the member `size_` and the
bucket store `table_`. -/
structure HashTable where
  size_ : Nat
  table_ : List (List Int)
deriving DecidableEq

/-- Models `int hash(int data, int K) { return data % K; }`.
C++ `%` on `int` truncates toward zero, which is `Int.tmod`. -/
def HashTable.hash (data K : Int) : Int :=
  Int.tmod data K

/-- Models a read `table[index]` on a `std::vector<ListNode*>`: defined
only when `0 ≤ index < table.size()`; out of bounds yields `none`. -/
def bucketAt (table : List (List Int)) (index : Int) : Option (List Int) :=
  if 0 ≤ index then table[index.toNat]? else none

/-- Models the append path of the private `insert`: when the bucket is
empty the new node becomes `table[index]`, otherwise the loop walks to
the last node and links the new node after it. -/
def appendNode (head : List Int) (data : Int) : List Int :=
  match head with
  | [] => [data]
  | x :: rest => x :: appendNode rest data

/-- Models the private `void insert(int data, std::vector<ListNode*>& table)`:
computes the index under `table.size()`, appends a node holding `data`
to the bucket there, and increments the member `size_`.  `none` models
the out-of-bounds access `table[index]` for a negative index. -/
def insertTable (data : Int) (table : List (List Int)) (size_ : Nat) :
    Option (List (List Int) × Nat) :=
  match bucketAt table (HashTable.hash data (table.length : Int)) with
  | none => none
  | some head =>
    some (table.set (HashTable.hash data (table.length : Int)).toNat
      (appendNode head data), size_ + 1)

/-- Models the inner `while (head)` loop of `resize()`: every node of one
bucket chain is re-inserted into the new store through the private
`insert`, which also increments `size_`. -/
def resizeChain (head : List Int) (table : List (List Int)) (size_ : Nat) :
    Option (List (List Int) × Nat) :=
  match head with
  | [] => some (table, size_)
  | d :: rest =>
    match insertTable d table size_ with
    | none => none
    | some (t, sz) => resizeChain rest t sz

/-- Models the outer `for (ListNode* head : table_)` loop of `resize()`. -/
def resizeBuckets (buckets : List (List Int)) (table : List (List Int)) (size_ : Nat) :
    Option (List (List Int) × Nat) :=
  match buckets with
  | [] => some (table, size_)
  | b :: rest =>
    match resizeChain b table size_ with
    | none => none
    | some (t, sz) => resizeBuckets rest t sz

/-- Models `void resize()`: allocates `table_.size() * 2` empty buckets,
re-inserts every stored node through the private (size-incrementing)
`insert`, then swaps the new store in. -/
def HashTable.resize (s : HashTable) : Option HashTable :=
  match resizeBuckets s.table_ (List.replicate (s.table_.length * 2) []) s.size_ with
  | none => none
  | some (t, sz) => some ⟨sz, t⟩

/-- Models `double get_balance_factor()`: `size_` divided by the bucket
count, as an exact rational (see the header note on `double`). -/
def HashTable.get_balance_factor (s : HashTable) : ℚ :=
  (s.size_ : ℚ) / (s.table_.length : ℚ)

/-- Models the public `void insert(int data)`: resize when the balance
exceeds `0.5`, then insert through the private overload.  The `double`
test `size_ / K > 0.5` is written as the integer test `2 * size_ > K`:
for `K ≥ 1` the two are exactly equivalent (`balance_gt_half_iff`
below), and for `K = 0` the C++ division gives `+inf` (taken) for
`size_ > 0` and `NaN` (not taken) for `size_ = 0`, which the integer
test reproduces as well. -/
def HashTable.insert (data : Int) (s : HashTable) : Option HashTable :=
  match (if 2 * s.size_ > s.table_.length then s.resize else some s) with
  | none => none
  | some s₁ =>
    match insertTable data s₁.table_ s₁.size_ with
    | none => none
    | some (t, sz) => some ⟨sz, t⟩

/-- Models the `while (head)` loop of `find` with explicit fuel.  The
source loop compares `head->data` with `data` but never advances
`head`, so the recursive call keeps the same bucket cursor; `none` at
fuel `0` models the resulting non-termination. -/
def findLoop (data : Int) (head : List Int) : Nat → Option Bool
  | 0 => none
  | fuel + 1 =>
    match head with
    | [] => some false
    | x :: rest => if x = data then some true else findLoop data (x :: rest) fuel

/-- Models `bool find(int data)`: index the bucket under the current
capacity, then run the scan loop with the given fuel. -/
def HashTable.find (fuel : Nat) (data : Int) (s : HashTable) : Option Bool :=
  match bucketAt s.table_ (HashTable.hash data (s.table_.length : Int)) with
  | none => none
  | some head => findLoop data head fuel

/-- Models `bool erase(int data)`: the source body is a stub that
returns `false` and mutates nothing. -/
def HashTable.erase (data : Int) (s : HashTable) : Bool × HashTable :=
  (false, s)

/-- Models `int size()`. -/
def HashTable.size (s : HashTable) : Nat :=
  s.size_

/-- Models the constructor `HashTable(int cap)`: `size_` is `0` and the
store holds `max(cap, 10)` empty buckets. -/
def mkHashTable (cap : Int) : HashTable :=
  ⟨0, List.replicate (max cap 10).toNat []⟩

/-- Runs a sequence of public inserts, left to right. -/
def insertAll (keys : List Int) (s : HashTable) : Option HashTable :=
  match keys with
  | [] => some s
  | k :: rest =>
    match s.insert k with
    | none => none
    | some s' => insertAll rest s'

/-- Every key stored anywhere in a bucket store, bucket by bucket in
store order — the order in which `resize()`'s loops visit the nodes. -/
def allKeys : List (List Int) → List Int
  | [] => []
  | b :: rest => b ++ allKeys rest

/-- Table states reachable from a freshly constructed table by public
operations that complete normally (`find` does not change state). -/
inductive Reachable : HashTable → Prop
  | init (cap : Int) : Reachable (mkHashTable cap)
  | insert_step {s s' : HashTable} (k : Int) :
      Reachable s → HashTable.insert k s = some s' → Reachable s'
  | erase_step {s : HashTable} (k : Int) :
      Reachable s → Reachable (HashTable.erase k s).2

/-- Every key of every bucket is in the bucket its hash under the current
capacity selects. -/
def Placed (table : List (List Int)) : Prop :=
  ∀ (i : Nat) (b : List Int), table[i]? = some b →
    ∀ k ∈ b, HashTable.hash k (table.length : Int) = (i : Int)

/-! ### Basic lemmas about the embedded operations -/

/-- The tail-append walk of the private `insert` appends one node. -/
theorem appendNode_eq_append (head : List Int) (data : Int) :
    appendNode head data = head ++ [data] := by
  induction head with
  | nil => rfl
  | cons x rest ih => simp [appendNode, ih]

/-- For a non-negative key and positive capacity, C++ truncated `%`
agrees with Euclidean `%` and lands in `[0, K)`. -/
theorem hash_range {d K : Int} (hd : 0 ≤ d) (hK : 1 ≤ K) :
    0 ≤ HashTable.hash d K ∧ HashTable.hash d K < K := by
  have he : HashTable.hash d K = d % K := Int.tmod_eq_emod hd (by omega)
  exact ⟨by rw [he]; exact Int.emod_nonneg d (by omega),
         by rw [he]; exact Int.emod_lt_of_pos d (by omega)⟩

/-- An in-range index makes the guarded vector read succeed. -/
theorem bucketAt_eq_some {table : List (List Int)} {i : Int}
    (h0 : 0 ≤ i) (h1 : i.toNat < table.length) :
    bucketAt table i = some (table.get ⟨i.toNat, h1⟩) := by
  simp [bucketAt, h0, List.getElem?_eq_getElem h1, List.get_eq_getElem]

/-- Setting one bucket to itself plus a tail key permutes the stored
keys by consing the new key. -/
theorem allKeys_set_append (table : List (List Int)) (n : Nat)
    (hn : n < table.length) (d : Int) :
    (allKeys (table.set n (table.get ⟨n, hn⟩ ++ [d]))).Perm (d :: allKeys table) := by
  induction table generalizing n with
  | nil => simp at hn
  | cons b rest ih =>
    cases n with
    | zero =>
      simp only [List.set, allKeys, List.get]
      rw [List.append_assoc]
      exact List.perm_middle
    | succ m =>
      have hm : m < rest.length := by simpa using hn
      simp only [List.set, allKeys, List.get_cons_succ]
      exact ((ih m hm).append_left b).trans List.perm_middle

/-- Appending a key to the bucket its hash selects preserves `Placed`. -/
theorem placed_set {table : List (List Int)} {n : Nat} {d : Int}
    (hn : n < table.length) (hp : Placed table)
    (hd : HashTable.hash d (table.length : Int) = (n : Int)) :
    Placed (table.set n (table.get ⟨n, hn⟩ ++ [d])) := by
  intro i b hb k hk
  rw [List.length_set]
  rcases eq_or_ne n i with h | h
  · subst h
    rw [List.getElem?_set_eq hn] at hb
    cases hb
    rcases List.mem_append.mp hk with hk | hk
    · exact hp n _ (by rw [List.getElem?_eq_getElem hn, List.get_eq_getElem]) k hk
    · rw [List.mem_singleton.mp hk]; exact hd
  · rw [List.getElem?_set_ne h] at hb
    exact hp i b hb k hk

/-- The private `insert` on a non-empty store with a non-negative key:
it succeeds, increments `size_`, keeps the store's length, conses the
key onto the stored multiset, and keeps every key correctly placed. -/
theorem insertTable_spec (d : Int) (table : List (List Int)) (sz : Nat)
    (hd : 0 ≤ d) (hK : 1 ≤ table.length) :
    ∃ t', insertTable d table sz = some (t', sz + 1) ∧
      t'.length = table.length ∧
      (allKeys t').Perm (d :: allKeys table) ∧
      (Placed table → Placed t') := by
  have hK' : (1 : Int) ≤ (table.length : Int) := by exact_mod_cast hK
  obtain ⟨h0, h1⟩ := hash_range hd hK'
  have hn : (HashTable.hash d (table.length : Int)).toNat < table.length := by omega
  refine ⟨table.set (HashTable.hash d (table.length : Int)).toNat
      (table.get ⟨(HashTable.hash d (table.length : Int)).toNat, hn⟩ ++ [d]), ?_, ?_, ?_, ?_⟩
  · simp only [insertTable, bucketAt_eq_some h0 hn, appendNode_eq_append]
  · exact List.length_set ..
  · exact allKeys_set_append table _ hn d
  · intro hp
    exact placed_set hn hp (by rw [Int.toNat_of_nonneg h0])

/-- The inner resize loop re-inserts one bucket chain: it adds the
chain's length to `size_`, keeps the new store's length, prepends the
chain to the stored multiset, and keeps keys correctly placed. -/
theorem resizeChain_spec (chain : List Int) :
    ∀ (table : List (List Int)) (sz : Nat),
      (∀ d ∈ chain, 0 ≤ d) → 1 ≤ table.length →
      ∃ t', resizeChain chain table sz = some (t', sz + chain.length) ∧
        t'.length = table.length ∧
        (allKeys t').Perm (chain ++ allKeys table) ∧
        (Placed table → Placed t') := by
  induction chain with
  | nil =>
    intro table sz _ _
    exact ⟨table, rfl, rfl, by simp, fun h => h⟩
  | cons d rest ih =>
    intro table sz hnn hK
    obtain ⟨t₁, he₁, hl₁, hp₁, hpl₁⟩ :=
      insertTable_spec d table sz (hnn d (by simp)) hK
    obtain ⟨t₂, he₂, hl₂, hp₂, hpl₂⟩ :=
      ih t₁ (sz + 1) (fun k hk => hnn k (by simp [hk])) (hl₁ ▸ hK)
    refine ⟨t₂, ?_, hl₁ ▸ hl₂, ?_, fun hp => hpl₂ (hpl₁ hp)⟩
    · have harith : sz + (d :: rest).length = sz + 1 + rest.length := by
        simp; omega
      rw [harith]
      simpa [resizeChain, he₁] using he₂
    · refine hp₂.trans ?_
      refine ((hp₁.append_left rest).trans List.perm_middle).trans ?_
      exact List.Perm.refl _

/-- The outer resize loop over a list of buckets: same shape, with the
concatenation of all visited chains. -/
theorem resizeBuckets_spec (buckets : List (List Int)) :
    ∀ (table : List (List Int)) (sz : Nat),
      (∀ d ∈ allKeys buckets, 0 ≤ d) → 1 ≤ table.length →
      ∃ t', resizeBuckets buckets table sz = some (t', sz + (allKeys buckets).length) ∧
        t'.length = table.length ∧
        (allKeys t').Perm (allKeys buckets ++ allKeys table) ∧
        (Placed table → Placed t') := by
  induction buckets with
  | nil =>
    intro table sz _ _
    exact ⟨table, rfl, rfl, by simp [allKeys], fun h => h⟩
  | cons b rest ih =>
    intro table sz hnn hK
    obtain ⟨t₁, he₁, hl₁, hp₁, hpl₁⟩ :=
      resizeChain_spec b table sz (fun d hd => hnn d (by simp [allKeys, hd])) hK
    obtain ⟨t₂, he₂, hl₂, hp₂, hpl₂⟩ :=
      ih t₁ (sz + b.length) (fun k hk => hnn k (by simp [allKeys, hk])) (hl₁ ▸ hK)
    refine ⟨t₂, ?_, hl₁ ▸ hl₂, ?_, fun hp => hpl₂ (hpl₁ hp)⟩
    · have harith : sz + (allKeys (b :: rest)).length
          = sz + b.length + (allKeys rest).length := by
        simp [allKeys]; omega
      rw [harith]
      simpa [resizeBuckets, he₁] using he₂
    · refine hp₂.trans ?_
      refine ((hp₁.append_left (allKeys rest)).trans ?_)
      show ((allKeys rest) ++ (b ++ allKeys table)).Perm (allKeys (b :: rest) ++ allKeys table)
      rw [← List.append_assoc]
      show ((allKeys rest ++ b) ++ allKeys table).Perm ((b ++ allKeys rest) ++ allKeys table)
      exact List.perm_append_comm.append_right _

/-- A successful private `insert` keeps the store's length, bumps the
count by one, and forces the store to be non-empty. -/
theorem insertTable_some {d : Int} {t : List (List Int)} {sz : Nat}
    {t' : List (List Int)} {sz' : Nat}
    (h : insertTable d t sz = some (t', sz')) :
    t'.length = t.length ∧ sz' = sz + 1 ∧ 1 ≤ t.length := by
  unfold insertTable at h
  cases hb : bucketAt t (HashTable.hash d (t.length : Int)) with
  | none => rw [hb] at h; cases h
  | some b =>
    rw [hb] at h
    cases h
    refine ⟨List.length_set .., rfl, ?_⟩
    unfold bucketAt at hb
    by_cases h0 : (0 : Int) ≤ HashTable.hash d (t.length : Int)
    · rw [if_pos h0] at hb
      obtain ⟨hlt, -⟩ := List.getElem?_eq_some.mp hb
      omega
    · rw [if_neg h0] at hb; cases hb

/-- A successful inner resize loop keeps the store's length. -/
theorem resizeChain_length {chain : List Int} :
    ∀ {t : List (List Int)} {sz : Nat} {t' : List (List Int)} {sz' : Nat},
      resizeChain chain t sz = some (t', sz') → t'.length = t.length := by
  induction chain with
  | nil =>
    intro t sz t' sz' h
    cases h; rfl
  | cons d rest ih =>
    intro t sz t' sz' h
    unfold resizeChain at h
    cases hi : insertTable d t sz with
    | none => rw [hi] at h; cases h
    | some p =>
      obtain ⟨t₁, sz₁⟩ := p
      rw [hi] at h
      rw [ih h, (insertTable_some hi).1]

/-- A successful outer resize loop keeps the store's length. -/
theorem resizeBuckets_length {buckets : List (List Int)} :
    ∀ {t : List (List Int)} {sz : Nat} {t' : List (List Int)} {sz' : Nat},
      resizeBuckets buckets t sz = some (t', sz') → t'.length = t.length := by
  induction buckets with
  | nil =>
    intro t sz t' sz' h
    cases h; rfl
  | cons b rest ih =>
    intro t sz t' sz' h
    unfold resizeBuckets at h
    cases hi : resizeChain b t sz with
    | none => rw [hi] at h; cases h
    | some p =>
      obtain ⟨t₁, sz₁⟩ := p
      rw [hi] at h
      rw [ih h, resizeChain_length hi]

/-- A successful `resize` doubles the bucket count. -/
theorem resize_length {s s' : HashTable} (h : s.resize = some s') :
    s'.table_.length = 2 * s.table_.length := by
  unfold HashTable.resize at h
  cases hr : resizeBuckets s.table_ (List.replicate (s.table_.length * 2) []) s.size_ with
  | none => rw [hr] at h; cases h
  | some p =>
    obtain ⟨t, sz⟩ := p
    rw [hr] at h
    cases h
    have := resizeBuckets_length hr
    simp only [List.length_replicate] at this
    simpa [this] using by omega

/-- A successful public `insert` keeps the bucket count or doubles it. -/
theorem insert_length {k : Int} {s s' : HashTable}
    (h : HashTable.insert k s = some s') :
    s'.table_.length = s.table_.length ∨ s'.table_.length = 2 * s.table_.length := by
  unfold HashTable.insert at h
  by_cases hbf : 2 * s.size_ > s.table_.length
  · rw [if_pos hbf] at h
    cases hr : s.resize with
    | none => rw [hr] at h; cases h
    | some s₁ =>
      rw [hr] at h
      dsimp only at h
      cases hi : insertTable k s₁.table_ s₁.size_ with
      | none => rw [hi] at h; cases h
      | some p =>
        obtain ⟨t, sz⟩ := p
        rw [hi] at h
        cases h
        right
        show t.length = 2 * s.table_.length
        rw [(insertTable_some hi).1, resize_length hr]
  · rw [if_neg hbf] at h
    dsimp only at h
    cases hi : insertTable k s.table_ s.size_ with
    | none => rw [hi] at h; cases h
    | some p =>
      obtain ⟨t, sz⟩ := p
      rw [hi] at h
      cases h
      left
      exact (insertTable_some hi).1

/-- Every reachable table keeps the constructor's minimum of 10 buckets. -/
theorem reachable_min_capacity {s : HashTable} (h : Reachable s) :
    10 ≤ s.table_.length := by
  induction h with
  | init cap =>
    have hm : (10 : Int) ≤ max cap 10 := le_max_right cap 10
    simp only [mkHashTable, List.length_replicate]
    omega
  | insert_step k hs hins ih =>
    rcases insert_length hins with h' | h' <;> omega
  | erase_step k hs ih =>
    exact ih

/-- A store of empty buckets stores no keys. -/
theorem allKeys_replicate_nil (n : Nat) :
    allKeys (List.replicate n ([] : List Int)) = [] := by
  induction n with
  | zero => rfl
  | succ m ih => simp [List.replicate, allKeys, ih]

/-- A store of empty buckets has every key (vacuously) placed. -/
theorem placed_replicate_nil (n : Nat) :
    Placed (List.replicate n ([] : List Int)) := by
  intro i b hb k hk
  rw [List.getElem?_replicate] at hb
  by_cases hi : i < n
  · rw [if_pos hi] at hb
    cases hb
    cases hk
  · rw [if_neg hi] at hb
    cases hb

/-- On a non-empty store, the integer test used in the embedded `insert`
is exactly the source's `double` test `get_balance_factor() > 0.5`. -/
theorem balance_gt_half_iff (s : HashTable) (hK : 1 ≤ s.table_.length) :
    2 * s.size_ > s.table_.length ↔ s.get_balance_factor > 1/2 := by
  have hpos : (0 : ℚ) < (s.table_.length : ℚ) := by
    exact_mod_cast Nat.lt_of_lt_of_le Nat.zero_lt_one hK
  unfold HashTable.get_balance_factor
  constructor
  · intro h
    rw [gt_iff_lt, lt_div_iff hpos]
    have hc : (s.table_.length : ℚ) < 2 * (s.size_ : ℚ) := by exact_mod_cast h
    linarith
  · intro h
    rw [gt_iff_lt, lt_div_iff hpos] at h
    have hc : (s.table_.length : ℚ) < 2 * (s.size_ : ℚ) := by linarith
    exact_mod_cast hc

/-! ### Claim theorems -/

/-- C4: on every reachable table whose stored keys are all non-negative,
`resize()` succeeds, doubles the bucket count, leaves the multiset of
stored keys identical (no key lost, none duplicated), and afterwards
every stored key sits in the bucket selected by hashing it with the new
capacity. -/
theorem resize_preserves_keys (s : HashTable) (hre : Reachable s)
    (hk : ∀ k ∈ allKeys s.table_, 0 ≤ k) :
    ∃ s', s.resize = some s' ∧
      s'.table_.length = 2 * s.table_.length ∧
      (allKeys s'.table_ : Multiset Int) = (allKeys s.table_ : Multiset Int) ∧
      Placed s'.table_ := by
  have hcap := reachable_min_capacity hre
  have hK : 1 ≤ (List.replicate (s.table_.length * 2) ([] : List Int)).length := by
    simp only [List.length_replicate]
    omega
  obtain ⟨t', he, hl, hperm, hpl⟩ :=
    resizeBuckets_spec s.table_ (List.replicate (s.table_.length * 2) []) s.size_ hk hK
  refine ⟨⟨s.size_ + (allKeys s.table_).length, t'⟩, ?_, ?_, ?_, ?_⟩
  · unfold HashTable.resize
    rw [he]
  · show t'.length = 2 * s.table_.length
    rw [hl, List.length_replicate]
    omega
  · show (allKeys t' : Multiset Int) = (allKeys s.table_ : Multiset Int)
    rw [allKeys_replicate_nil, List.append_nil] at hperm
    exact Multiset.coe_eq_coe.mpr hperm
  · exact hpl (placed_replicate_nil _)

/-- C4 witness: the reachable one-element table obtained by inserting
`1` into a fresh table of requested capacity 10. -/
theorem resize_preserves_keys_witness :
    (∀ k ∈ allKeys (HashTable.mk 1 [[], [1], [], [], [], [], [], [], [], []]).table_, 0 ≤ k) ∧
    ∃ s', (HashTable.mk 1 [[], [1], [], [], [], [], [], [], [], []]).resize = some s' ∧
      s'.table_.length =
        2 * (HashTable.mk 1 [[], [1], [], [], [], [], [], [], [], []]).table_.length ∧
      (allKeys s'.table_ : Multiset Int) =
        (allKeys (HashTable.mk 1 [[], [1], [], [], [], [], [], [], [], []]).table_ : Multiset Int) ∧
      Placed s'.table_ :=
  ⟨by decide,
   resize_preserves_keys _
     (Reachable.insert_step 1 (Reachable.init 10) (by decide))
     (by decide)⟩

/-- C1 fails on the code: after inserting key `1` into a fresh table,
`find(11)` hashes to the same bucket, the head key `1` differs from
`11`, and the loop never advances `head`, so no amount of fuel makes
the scan return — the source `find` does not terminate here. -/
theorem find_never_returns :
    ∀ fuel : Nat,
      Option.bind (HashTable.insert 1 (mkHashTable 10)) (HashTable.find fuel 11) = none := by
  have hloop : ∀ f : Nat, findLoop 11 [1] f = none := by
    intro f
    induction f with
    | zero => rfl
    | succ g ih => simpa [findLoop] using ih
  intro fuel
  have h1 : HashTable.insert 1 (mkHashTable 10) =
      some (HashTable.mk 1 [[], [1], [], [], [], [], [], [], [], []]) := by decide
  rw [h1]
  show HashTable.find fuel 11 (HashTable.mk 1 [[], [1], [], [], [], [], [], [], [], []]) = none
  unfold HashTable.find
  rw [(by decide :
    bucketAt (HashTable.mk 1 [[], [1], [], [], [], [], [], [], [], []]).table_
      (HashTable.hash 11
        ((HashTable.mk 1 [[], [1], [], [], [], [], [], [], [], []]).table_.length : Int))
      = some [1])]
  exact hloop fuel

/-- C2 fails on the code: inserting `1..6` into a fresh table triggers
no resize (every pre-insert check is at most `0.5`), yet the final
balance is `6 / 10 > 0.5`. -/
theorem load_after_insert_exceeds_half :
    insertAll [1, 2, 3, 4, 5, 6] (mkHashTable 10) =
      some (HashTable.mk 6 [[], [1], [2], [3], [4], [5], [6], [], [], []]) ∧
    ¬ (HashTable.mk 6 [[], [1], [2], [3], [4], [5], [6], [], [], []]).get_balance_factor
        ≤ 1/2 := by
  refine ⟨by decide, ?_⟩
  unfold HashTable.get_balance_factor
  norm_num

/-- C2 amended: an `insert` whose pre-insert balance check does not
exceed `0.5` (the hypothesis `2 * size_ ≤ capacity` is that check, by
`balance_gt_half_iff`) leaves the load factor at most
`0.5 + 1/capacity`; the `0.5` bound itself holds only before inserts,
not after. -/
theorem insert_no_resize_load (s s' : HashTable) (k : Int)
    (hbf : 2 * s.size_ ≤ s.table_.length)
    (h : HashTable.insert k s = some s') :
    s'.get_balance_factor ≤ 1/2 + 1 / (s'.table_.length : ℚ) := by
  unfold HashTable.insert at h
  rw [if_neg (by omega)] at h
  dsimp only at h
  cases hi : insertTable k s.table_ s.size_ with
  | none => rw [hi] at h; cases h
  | some p =>
    obtain ⟨t, sz⟩ := p
    rw [hi] at h
    cases h
    obtain ⟨hlen, hsz, hpos⟩ := insertTable_some hi
    unfold HashTable.get_balance_factor
    dsimp only
    rw [hsz, hlen]
    have hq : (0 : ℚ) < (s.table_.length : ℚ) := by
      exact_mod_cast Nat.lt_of_lt_of_le Nat.zero_lt_one hpos
    have hhalf : (s.size_ : ℚ) / (s.table_.length : ℚ) ≤ 1/2 := by
      rw [div_le_iff hq]
      have hc : 2 * (s.size_ : ℚ) ≤ (s.table_.length : ℚ) := by exact_mod_cast hbf
      linarith
    push_cast
    rw [add_div]
    linarith [hhalf]

/-- C2 amended witness: inserting `1` into a fresh table. -/
theorem insert_no_resize_load_witness :
    2 * (mkHashTable 10).size_ ≤ (mkHashTable 10).table_.length ∧
    HashTable.insert 1 (mkHashTable 10) =
      some (HashTable.mk 1 [[], [1], [], [], [], [], [], [], [], []]) ∧
    (HashTable.mk 1 [[], [1], [], [], [], [], [], [], [], []]).get_balance_factor
      ≤ 1/2 + 1 / (((HashTable.mk 1
        [[], [1], [], [], [], [], [], [], [], []]).table_.length : ℚ)) :=
  ⟨by decide, by decide,
   insert_no_resize_load (mkHashTable 10)
     (HashTable.mk 1 [[], [1], [], [], [], [], [], [], [], []]) 1
     (by decide) (by decide)⟩

/-- C3 fails on the code: after the six inserts `1, 15, 1, 2, 3, 1` the
count is 6, and the single further insert of `12` leaves it at 13, not
7 — the triggered resize re-inserts every key through the private
`insert`, which increments `size_` again for each of them. -/
theorem insert_size_jump :
    (insertAll [1, 15, 1, 2, 3, 1] (mkHashTable 10)).map HashTable.size = some 6 ∧
    (insertAll [1, 15, 1, 2, 3, 1, 12] (mkHashTable 10)).map HashTable.size = some 13 :=
  ⟨by decide, by decide⟩

/-- C5 fails on the code: after inserting `1` twice, `erase(1)` returns
`false` and leaves the count at 2 — the source `erase` is a stub that
removes nothing. -/
theorem erase_after_duplicates_noop :
    (insertAll [1, 1] (mkHashTable 10)).map
      (fun s => ((HashTable.erase 1 s).1, HashTable.size (HashTable.erase 1 s).2)) =
      some (false, 2) := by decide

/-- C6 as stated is false on the code: the scenario does not end with
`size() = 7` and 10 buckets. -/
theorem scenario_claim_false :
    (insertAll [1, 15, 1, 2, 3, 1, 12] (mkHashTable 1)).map
      (fun s => (HashTable.size s, s.table_.length)) ≠ some (7, 10) := by decide

/-- C6 amended: constructing with requested capacity 1 (floored to 10)
and inserting `1, 15, 1, 2, 3, 1, 12` yields `size() = 13` and 20
buckets: the pre-check of the seventh insert sees `6/10 > 0.5`, so a
resize doubles the capacity and — re-inserting through the
size-incrementing private `insert` — doubles the count to 12 before the
final key is appended. -/
theorem scenario_result :
    (insertAll [1, 15, 1, 2, 3, 1, 12] (mkHashTable 1)).map
      (fun s => (HashTable.size s, s.table_.length)) = some (13, 20) := by decide

/-- C7: on any reachable table, erasing a key that is not stored
returns `false` and changes nothing (the stub does this for every
key). -/
theorem erase_absent_noop (s : HashTable) (k : Int) (hre : Reachable s)
    (hk : k ∉ allKeys s.table_) :
    (HashTable.erase k s).1 = false ∧
      HashTable.size (HashTable.erase k s).2 = HashTable.size s ∧
      (HashTable.erase k s).2 = s :=
  ⟨rfl, rfl, rfl⟩

/-- C7 witness: a fresh table and the absent key `1`. -/
theorem erase_absent_noop_witness :
    (1 : Int) ∉ allKeys (mkHashTable 10).table_ ∧
      (HashTable.erase 1 (mkHashTable 10)).1 = false ∧
      HashTable.size (HashTable.erase 1 (mkHashTable 10)).2 = HashTable.size (mkHashTable 10) ∧
      (HashTable.erase 1 (mkHashTable 10)).2 = mkHashTable 10 :=
  ⟨by decide, erase_absent_noop (mkHashTable 10) 1 (Reachable.init 10) (by decide)⟩

/-- C8: on a freshly constructed table every bucket is empty, so `find`
of any non-negative key terminates at once (any positive fuel) and
returns `false`. -/
theorem find_fresh_false (cap k : Int) (fuel : Nat) (hk : 0 ≤ k) :
    HashTable.find (fuel + 1) k (mkHashTable cap) = some false := by
  have hm : (10 : Int) ≤ max cap 10 := le_max_right cap 10
  have hlen : (mkHashTable cap).table_.length = (max cap 10).toNat := by
    simp [mkHashTable]
  have hK : (1 : Int) ≤ ((mkHashTable cap).table_.length : Int) := by
    rw [hlen]; omega
  obtain ⟨h0, h1⟩ := hash_range hk hK
  have hn : (HashTable.hash k ((mkHashTable cap).table_.length : Int)).toNat
      < (mkHashTable cap).table_.length := by omega
  have hb : bucketAt (mkHashTable cap).table_
      (HashTable.hash k ((mkHashTable cap).table_.length : Int)) = some [] := by
    rw [bucketAt_eq_some h0 hn]
    congr 1
    simp [mkHashTable, List.get_eq_getElem, List.getElem_replicate]
  unfold HashTable.find
  rw [hb]
  simp [findLoop]

/-- C8 witness: key `5` on a fresh table with fuel 1. -/
theorem find_fresh_false_witness :
    (0 : Int) ≤ 5 ∧ HashTable.find 1 5 (mkHashTable 10) = some false :=
  ⟨by decide, find_fresh_false 10 5 0 (by decide)⟩

/-- C9: for a non-negative key and a capacity of at least 1, the hash
index is in `[0, capacity)`, so the guarded bucket read that `insert`
and `find` perform on a store of that capacity succeeds. -/
theorem hash_in_range_and_access (k K : Int) (table : List (List Int))
    (hk : 0 ≤ k) (hK : 1 ≤ K) (hlen : (table.length : Int) = K) :
    0 ≤ HashTable.hash k K ∧ HashTable.hash k K < K ∧
      (bucketAt table (HashTable.hash k K)).isSome = true := by
  obtain ⟨h0, h1⟩ := hash_range hk hK
  have hn : (HashTable.hash k K).toNat < table.length := by omega
  rw [bucketAt_eq_some h0 hn]
  exact ⟨h0, h1, rfl⟩

/-- C9 witness: key `3`, capacity `10`, a store of ten empty buckets. -/
theorem hash_in_range_and_access_witness :
    (0 : Int) ≤ 3 ∧ (1 : Int) ≤ 10 ∧
      ((List.replicate 10 ([] : List Int)).length : Int) = 10 ∧
      (0 ≤ HashTable.hash 3 10 ∧ HashTable.hash 3 10 < 10 ∧
        (bucketAt (List.replicate 10 ([] : List Int)) (HashTable.hash 3 10)).isSome = true) :=
  ⟨by decide, by decide, by decide,
   hash_in_range_and_access 3 10 (List.replicate 10 []) (by decide) (by decide) (by decide)⟩

/-- C10: for the negative key `-7` (not a multiple of the capacity 10),
the C++ `%` gives the negative index `-7`, and the bucket accesses of
`insert` and `find` fall outside the store: the guarded reads yield no
bucket, so both operations are undefined behaviour in the source. -/
theorem negative_key_out_of_bounds :
    HashTable.hash (-7) 10 < 0 ∧
    bucketAt (mkHashTable 10).table_
      (HashTable.hash (-7) ((mkHashTable 10).table_.length : Int)) = none ∧
    HashTable.insert (-7) (mkHashTable 10) = none ∧
    ∀ fuel : Nat, HashTable.find fuel (-7) (mkHashTable 10) = none :=
  ⟨by decide, by decide, by decide, fun fuel => rfl⟩
